import Mathlib

/-!
Verification of the `create-convexity-n-layer-template` scaffolding CLI.

JavaScript strings are modelled as `List Char` (one entry per UTF-16 code
unit, restricted to the code points the tool manipulates).  Each definition
mirrors one function or statement block of `src/bin/index.js` (variant A)
or of the unnamed second variant of the CLI (variant B); effectful stages
(prompts, filesystem, `degit`, subprocesses) are modelled by an explicit
environment record supplying every external outcome, and the command action
becomes a pure function from that environment to a run-outcome record.
-/

namespace Convexity

/-- Characters of a Lean string literal, used to write concrete JS strings. -/
def chars (s : String) : List Char := s.data

/-- Whitespace, as matched by the JavaScript `\s` class and `trim()`
(restricted to the ASCII part). -/
def jsIsSpace (c : Char) : Bool :=
  c == ' ' || c == '\t' || c == '\n' || c == '\r' || c == '\x0b' || c == '\x0c'

/-- ASCII uppercase letter. -/
def isUpperAscii (c : Char) : Bool :=
  65 ≤ c.toNat && c.toNat ≤ 90

/-- JavaScript `String.prototype.toLowerCase`, on the ASCII range. -/
def jsToLower (c : Char) : Char :=
  if isUpperAscii c then Char.ofNat (c.toNat + 32) else c

/-- Membership in the character class `[a-z0-9-_.]` of `slugify`'s third
`replace` (source: `.replace(/[^a-z0-9-_.]/g, '-')`). -/
def allowedChar (c : Char) : Bool :=
  ('a'.toNat ≤ c.toNat && c.toNat ≤ 'z'.toNat) ||
  ('0'.toNat ≤ c.toNat && c.toNat ≤ '9'.toNat) ||
  c == '-' || c == '_' || c == '.'

/-- Hyphen test, the character class of the hyphen-collapsing regex. -/
def isHyphen (c : Char) : Bool := c == '-'

/-- JavaScript `String.prototype.trim()`: drop leading and trailing whitespace. -/
def jsTrim (l : List Char) : List Char :=
  ((l.dropWhile jsIsSpace).reverse.dropWhile jsIsSpace).reverse

/-- One pass of `.replace(/X+/g, '-')` for a character class `p`: every
maximal run of `p`-characters is replaced by a single hyphen.  The flag
records whether the previous character was inside a run (in which case the
current `p`-character extends the already-emitted hyphen). -/
def replaceRunAux (p : Char → Bool) : Bool → List Char → List Char
  | _, [] => []
  | inRun, c :: rest =>
    if p c then
      if inRun then replaceRunAux p true rest
      else '-' :: replaceRunAux p true rest
    else c :: replaceRunAux p false rest

/-- The source's `.replace(/\s+/g, '-')`. -/
def replaceWsRuns (l : List Char) : List Char := replaceRunAux jsIsSpace false l

/-- The source's `.replace` of the global regex `-+` with `-`. -/
def collapseHyphens (l : List Char) : List Char := replaceRunAux isHyphen false l

/-- The source's `.replace(/[^a-z0-9-_.]/g, '-')`: each disallowed character becomes a
hyphen. -/
def mapDisallowed (l : List Char) : List Char :=
  l.map (fun c => if allowedChar c then c else '-')

/-- The source's `.replace(/(^-|-$)/g, '')`: removes one leading and one trailing
hyphen (the two alternatives match at most once each). -/
def stripEdgeHyphens (l : List Char) : List Char :=
  let l1 := if l.head? = some '-' then l.tail else l
  if l1.getLast? = some '-' then l1.dropLast else l1

/-- Function `slugify` from `src/bin/index.js` lines 12–21 (identical in the second
variant): trim, lowercase, whitespace runs to `-`, characters outside
`[a-z0-9-_.]` to `-`, collapse `-` runs, strip edge hyphens. -/
def slugify (s : List Char) : List Char :=
  stripEdgeHyphens (collapseHyphens (mapDisallowed (replaceWsRuns (List.map jsToLower (jsTrim s)))))

/-! ### Global literal replacement

`text.replace(tokenRegex-global, rep)` for a literal capture-free token
and a string replacement `rep`: a single left-to-right pass replacing each
leftmost non-overlapping occurrence; the replacement is not rescanned, but
ECMAScript applies GetSubstitution to it, expanding dollar escape
sequences against the current match.  Implemented structurally with a skip
counter (after a match, the remaining `pat.length - 1` matched characters
are consumed without emitting anything) and a position counter giving the
portions of the original subject string before and after the match. -/

/-- Backquote code point (96), used by the replacement-template syntax. -/
def backquoteChar : Char := Char.ofNat 96

/-- Apostrophe code point (39), used by the replacement-template syntax. -/
def quoteChar : Char := Char.ofNat 39

/-- ECMAScript GetSubstitution for a string replacement and a capture-free
pattern: `$$` inserts a dollar, `$&` the matched text, dollar-backquote
the part of the subject before the match, dollar-apostrophe the part
after the match; every other dollar sequence (including `$n` and
`$<...>`, as the pattern has no capture groups) is literal text. -/
def getSubstitution (matched before after : List Char) : List Char → List Char
  | [] => []
  | [c] => if c = '$' then ['$'] else [c]
  | c :: d :: r' =>
    if c = '$' then
      if d = '$' then '$' :: getSubstitution matched before after r'
      else if d = '&' then matched ++ getSubstitution matched before after r'
      else if d = backquoteChar then before ++ getSubstitution matched before after r'
      else if d = quoteChar then after ++ getSubstitution matched before after r'
      else '$' :: d :: getSubstitution matched before after r'
    else c :: getSubstitution matched before after (d :: r')

/-- Worker for `replaceAll`: `orig` is the whole subject string, `pos` the
index of the current scan position in it, and `skip` counts characters
still to consume from a match already emitted. -/
def replaceAllGo (pat rep orig : List Char) : Nat → Nat → List Char → List Char
  | _, _, [] => []
  | pos, Nat.succ k, _ :: rest => replaceAllGo pat rep orig (pos + 1) k rest
  | pos, 0, c :: rest =>
    if pat.isPrefixOf (c :: rest) then
      getSubstitution pat (orig.take pos) (orig.drop (pos + pat.length)) rep ++
        replaceAllGo pat rep orig (pos + 1) (pat.length - 1) rest
    else c :: replaceAllGo pat rep orig (pos + 1) 0 rest

/-- JavaScript `text.replace(pat-as-global-regex, rep)` for a literal
capture-free pattern `pat` and string replacement `rep` (dollar escapes
expanded per GetSubstitution). -/
def replaceAll (pat rep text : List Char) : List Char :=
  replaceAllGo pat rep text 0 0 text

/-! ### Fetch-spec computation -/

/-- JavaScript `s || d` for strings: the empty string is falsy. -/
def jsOr (s d : List Char) : List Char := if s = [] then d else s

/-- `.replace` of the anchored regex dropping leading slashes. -/
def stripLeadingSlashes (l : List Char) : List Char := l.dropWhile (· == '/')

/-- `.replace` of the anchored regex dropping trailing slashes. -/
def stripTrailingSlashes (l : List Char) : List Char :=
  (l.reverse.dropWhile (· == '/')).reverse

/-- Variant A, line 90: `(options.template || 'template').replace` stripping
leading slashes. -/
def templatePathA (templateOpt : List Char) : List Char :=
  stripLeadingSlashes (jsOr templateOpt (chars "template"))

/-- Variant B, line 119: `options.template || 'template'` (no stripping
here; leading slashes are stripped only when the subpath is appended). -/
def templatePathB (templateOpt : List Char) : List Char :=
  jsOr templateOpt (chars "template")

/-- Both variants: `(options.repo || '').trim().replace` stripping trailing
slashes. -/
def repoBaseOf (repoOpt : List Char) : List Char :=
  stripTrailingSlashes (jsTrim (jsOr repoOpt []))

/-- Variant A, lines 92–93: `buildSpec = (base) => templatePath === '.' ?
base : base + '/' + templatePath`. -/
def buildSpecA (templatePath base : List Char) : List Char :=
  if templatePath = chars "." then base else base ++ chars "/" ++ templatePath

/-- Variant B, lines 126–128: compare the raw subpath with `"."`, stripping
its leading slashes only in the join branch. -/
def repoSpecB (base templatePath : List Char) : List Char :=
  if templatePath = chars "." then base
  else base ++ chars "/" ++ stripLeadingSlashes templatePath

/-- Modelled from the spec's words, for comparison with the source: "if the
template subpath equals `\".\"`, the spec is the repository descriptor
alone; otherwise it is the repository descriptor joined with the subpath by
a path separator (subpath's leading separators stripped, descriptor's
trailing separators stripped)". -/
def specFromClaim (repo subpath : List Char) : List Char :=
  if subpath = chars "." then stripTrailingSlashes repo
  else stripTrailingSlashes repo ++ chars "/" ++ stripLeadingSlashes subpath

/-- The host-qualifier prefix recognized by variant A's fallback. -/
def ghQualifier : List Char := chars "github:"

/-- The source's `repoBase.replace` of the anchored `github:` regex with the empty
string (variant A, line 106). -/
def stripGhQualifier (l : List Char) : List Char :=
  if ghQualifier.isPrefixOf l then l.drop ghQualifier.length else l

/-! ### Installer detection (variant B only) -/

/-- Function `detectInstaller` of the second variant, lines 24–34: probe `pnpm`,
then `yarn`, defaulting to `npm`.  Returns the probe trace and result;
the environment booleans say whether each version probe succeeds. -/
def detectInstaller (pnpmOk yarnOk : Bool) : List (List Char) × List Char :=
  if pnpmOk then ([chars "pnpm"], chars "pnpm")
  else if yarnOk then ([chars "pnpm", chars "yarn"], chars "yarn")
  else ([chars "pnpm", chars "yarn"], chars "npm")

/-! ### The command action, as a pure function of an effect environment -/

/-- External outcomes supplied to one run: prompt answers, filesystem
state, clone success per spec, and subprocess successes.  `none` for a
prompt answer models the prompt being cancelled. -/
structure Env where
  positionalName : List Char
  promptedName : Option (List Char)
  templateOpt : List Char
  repoOpt : List Char
  installFlag : Bool
  noGitFlag : Bool
  dirExists : Bool
  dirEntries : List (List Char)
  overwriteAnswer : Option Bool
  cloneOk : List Char → Bool
  pkgExists : Bool
  pkgText : List Char
  pnpmOk : Bool
  yarnOk : Bool
  installOk : Bool
  gitInitOk : Bool
  gitAddOk : Bool
  gitCommitOk : Bool

/-- Outcome of the version-control stage. -/
inductive GitMsg where
  | notReached
  | skippedByFlag
  | initFailed
  | commitSkipped
  | committed
  deriving DecidableEq, Repr

/-- Observable outcome of one run. -/
structure RunOut where
  exitCode : Nat
  removedDir : Bool
  cloneAttempts : List (List Char)
  fallbackWarned : Option (List Char × List Char)
  fetchErrorSpec : Option (List Char)
  finalSpec : Option (List Char)
  wroteManifest : Option (List Char)
  installerUsed : Option (List Char)
  gitMsg : GitMsg
  deriving DecidableEq, Repr

/-- Outcome of a fetch stage: the degit specs attempted in order, the
warning (failed spec, retried spec) if the fallback fired, the spec named
in a printed clone-error message, and the final spec on success. -/
structure FetchOut where
  attempts : List (List Char)
  warned : Option (List Char × List Char)
  errorSpec : Option (List Char)
  success : Option (List Char)
  deriving DecidableEq, Repr

/-- Variant A, lines 97–116: try the spec; on failure, if the descriptor
starts with `github:`, warn and retry once with the prefix stripped;
otherwise print the error naming the spec and rethrow. -/
def fetchA (cloneOk : List Char → Bool) (base tp : List Char) : FetchOut :=
  let spec := buildSpecA tp base
  if cloneOk spec then ⟨[spec], none, none, some spec⟩
  else if ghQualifier.isPrefixOf base then
    let fb := buildSpecA tp (stripGhQualifier base)
    if cloneOk fb then ⟨[spec, fb], some (spec, fb), none, some fb⟩
    else ⟨[spec, fb], some (spec, fb), none, none⟩
  else ⟨[spec], none, some spec, none⟩

/-- Variant B, lines 139–145: a single attempt; on failure print the error
naming the spec and rethrow.  No fallback of any kind. -/
def fetchB (cloneOk : List Char → Bool) (spec : List Char) : FetchOut :=
  if cloneOk spec then ⟨[spec], none, none, some spec⟩
  else ⟨[spec], none, some spec, none⟩

/-- Both variants: project-name resolution.  A missing or empty positional
argument (falsy in JS) triggers the interactive prompt, whose answer is
trimmed; a non-empty positional argument is used as is, untrimmed.
`none` means the prompt was cancelled (the process exits 1). -/
def resolvedName (positional : List Char) (prompted : Option (List Char)) :
    Option (List Char) :=
  if positional = [] then prompted.map jsTrim else some positional

/-- Both variants: the target-directory guard.  `none` means the process
exits 1 (declined or cancelled overwrite); `some removed` means execution
continues, `removed` recording whether the pre-existing directory was
recursively deleted. -/
def guardStage (dirExists : Bool) (entries : List (List Char))
    (answer : Option Bool) : Option Bool :=
  if dirExists then
    if entries.length ≠ 0 then
      match answer with
      | some true => some true
      | some false => none
      | none => none
    else some false
  else some false

/-- Variant A, lines 118–125: replace the literal template name, then the
slug placeholder. -/
def rewritePkgA (name text : List Char) : List Char :=
  replaceAll (chars "__PROJECT_SLUG__") (slugify name)
    (replaceAll (chars "convexity-n-layer-template") name text)

/-- Variant B, lines 148–156: replace the name placeholder, then the slug
placeholder. -/
def rewritePkgB (name text : List Char) : List Char :=
  replaceAll (chars "__PROJECT_SLUG__") (slugify name)
    (replaceAll (chars "__PROJECT_NAME__") name text)

/-- Both variants, the version-control stage: `git init` and `git add`
share one try/catch whose handler only prints; the commit has its own
try/catch whose handler only prints.  No failure escapes the stage. -/
def gitStage (noGit initOk addOk commitOk : Bool) : GitMsg :=
  if noGit then .skippedByFlag
  else if !initOk then .initFailed
  else if !addOk then .initFailed
  else if !commitOk then .commitSkipped
  else .committed

/-- A run that aborted before the fetch stage (cancelled name prompt, or
declined/cancelled overwrite): `process.exit(1)` with nothing done. -/
def abortedRun : RunOut :=
  ⟨1, false, [], none, none, none, none, none, .notReached⟩

/-- Variant A, stages after the directory guard (lines 88–162). -/
def scaffoldA (e : Env) (name : List Char) (removed : Bool) : RunOut :=
  let tp := templatePathA e.templateOpt
  let base := repoBaseOf e.repoOpt
  let f := fetchA e.cloneOk base tp
  match f.success with
  | none =>
    ⟨1, removed, f.attempts, f.warned, f.errorSpec, none, none, none, .notReached⟩
  | some spec =>
    let newPkg := if e.pkgExists then some (rewritePkgA name e.pkgText) else none
    if e.installFlag && !e.installOk then
      ⟨1, removed, f.attempts, f.warned, f.errorSpec, some spec, newPkg,
        some (chars "npm"), .notReached⟩
    else
      ⟨0, removed, f.attempts, f.warned, f.errorSpec, some spec, newPkg,
        if e.installFlag then some (chars "npm") else none,
        gitStage e.noGitFlag e.gitInitOk e.gitAddOk e.gitCommitOk⟩

/-- Variant A's command action (lines 40–166), as a pure function of the
effect environment. -/
def runA (e : Env) : RunOut :=
  match resolvedName e.positionalName e.promptedName with
  | none => abortedRun
  | some name =>
    match guardStage e.dirExists e.dirEntries e.overwriteAnswer with
    | none => abortedRun
    | some removed => scaffoldA e name removed

/-- Variant B, stages after the directory guard (lines 111–194). -/
def scaffoldB (e : Env) (name : List Char) (removed : Bool) : RunOut :=
  let tp := templatePathB e.templateOpt
  let base := repoBaseOf e.repoOpt
  let f := fetchB e.cloneOk (repoSpecB base tp)
  match f.success with
  | none =>
    ⟨1, removed, f.attempts, f.warned, f.errorSpec, none, none, none, .notReached⟩
  | some spec =>
    let newPkg := if e.pkgExists then some (rewritePkgB name e.pkgText) else none
    let installer := (detectInstaller e.pnpmOk e.yarnOk).2
    if e.installFlag && !e.installOk then
      ⟨1, removed, f.attempts, f.warned, f.errorSpec, some spec, newPkg,
        some installer, .notReached⟩
    else
      ⟨0, removed, f.attempts, f.warned, f.errorSpec, some spec, newPkg,
        if e.installFlag then some installer else none,
        gitStage e.noGitFlag e.gitInitOk e.gitAddOk e.gitCommitOk⟩

/-- Variant B's command action (lines 61–198), as a pure function of the
effect environment. -/
def runB (e : Env) : RunOut :=
  match resolvedName e.positionalName e.promptedName with
  | none => abortedRun
  | some name =>
    match guardStage e.dirExists e.dirEntries e.overwriteAnswer with
    | none => abortedRun
    | some removed => scaffoldB e name removed

/-! ### Slug well-formedness -/

/-- Holds (`true`) iff no two consecutive characters of the list satisfy `p`;
with `p = isHyphen` this states "no two consecutive hyphens". -/
def noRun (p : Char → Bool) : List Char → Bool
  | a :: b :: rest => (!(p a && p b)) && noRun p (b :: rest)
  | _ => true

/-- Holds (`true`) iff `pat` occurs as a contiguous substring of the text. -/
def containsSub (pat : List Char) : List Char → Bool
  | [] => pat.isEmpty
  | c :: rest => pat.isPrefixOf (c :: rest) || containsSub pat rest

/-- Join a list of segments with a separator: the shape of a text whose
`pat`-occurrences have been split out (and of the corresponding
replacement result). -/
def joinWith (sep : List Char) : List (List Char) → List Char
  | [] => []
  | [x] => x
  | x :: y :: rest => x ++ sep ++ joinWith sep (y :: rest)

theorem char_ne_of_toNat_ne {c d : Char} (h : c.toNat ≠ d.toNat) : ¬ c = d :=
  fun he => h (he ▸ rfl)

theorem allowed_toNat {c : Char} (h : allowedChar c = true) :
    (97 ≤ c.toNat ∧ c.toNat ≤ 122) ∨ (48 ≤ c.toNat ∧ c.toNat ≤ 57) ∨
      c.toNat = 45 ∨ c.toNat = 95 ∨ c.toNat = 46 := by
  simp only [allowedChar, Bool.or_eq_true, Bool.and_eq_true, decide_eq_true_eq,
    beq_iff_eq] at h
  rcases h with (((h | h) | h) | h) | h
  · exact Or.inl h
  · exact Or.inr (Or.inl h)
  · exact Or.inr (Or.inr (Or.inl (h ▸ rfl)))
  · exact Or.inr (Or.inr (Or.inr (Or.inl (h ▸ rfl))))
  · exact Or.inr (Or.inr (Or.inr (Or.inr (h ▸ rfl))))

theorem allowed_not_upper {c : Char} (h : allowedChar c = true) :
    isUpperAscii c = false := by
  have := allowed_toNat h
  simp only [isUpperAscii, Bool.and_eq_false_iff, decide_eq_false_iff_not]
  omega

theorem allowed_not_space {c : Char} (h : allowedChar c = true) :
    jsIsSpace c = false := by
  have hn := allowed_toNat h
  simp only [jsIsSpace, Bool.or_eq_false_iff, beq_eq_false_iff_ne, ne_eq]
  refine ⟨⟨⟨⟨⟨?_, ?_⟩, ?_⟩, ?_⟩, ?_⟩, ?_⟩ <;>
    exact char_ne_of_toNat_ne (by simpa using by omega)

theorem allowed_toLower {c : Char} (h : allowedChar c = true) :
    jsToLower c = c := by
  simp [jsToLower, allowed_not_upper h]

theorem mem_replaceRunAux {p : Char → Bool} :
    ∀ (b : Bool) (l : List Char) (c : Char), c ∈ replaceRunAux p b l →
      c = '-' ∨ (c ∈ l ∧ p c = false) := by
  intro b l
  induction l generalizing b with
  | nil => simp [replaceRunAux]
  | cons a rest ih =>
    intro c hc
    simp only [replaceRunAux] at hc
    by_cases hpa : p a = true
    · rw [if_pos hpa] at hc
      cases b with
      | true =>
        rcases ih true c hc with h | ⟨hm, hp⟩
        · exact Or.inl h
        · exact Or.inr ⟨List.mem_cons_of_mem _ hm, hp⟩
      | false =>
        rcases List.mem_cons.mp hc with h | h
        · exact Or.inl h
        · rcases ih true c h with h' | ⟨hm, hp⟩
          · exact Or.inl h'
          · exact Or.inr ⟨List.mem_cons_of_mem _ hm, hp⟩
    · rw [if_neg hpa] at hc
      rcases List.mem_cons.mp hc with h | h
      · subst h
        exact Or.inr ⟨List.mem_cons_self _ _, Bool.eq_false_iff.mpr hpa⟩
      · rcases ih false c h with h' | ⟨hm, hp⟩
        · exact Or.inl h'
        · exact Or.inr ⟨List.mem_cons_of_mem _ hm, hp⟩

theorem mem_mapDisallowed {l : List Char} {c : Char} (h : c ∈ mapDisallowed l) :
    allowedChar c = true := by
  simp only [mapDisallowed, List.mem_map] at h
  obtain ⟨a, _, ha⟩ := h
  by_cases hall : allowedChar a = true
  · rw [if_pos hall] at ha; exact ha ▸ hall
  · rw [if_neg hall] at ha; exact ha ▸ (by decide)

theorem mem_collapseHyphens_allowed {l : List Char} {c : Char}
    (hl : ∀ x ∈ l, allowedChar x = true) (h : c ∈ collapseHyphens l) :
    allowedChar c = true := by
  rcases mem_replaceRunAux false l c h with h' | ⟨hm, _⟩
  · exact h' ▸ (by decide)
  · exact hl c hm

theorem noRun_cons {p : Char → Bool} {x : Char} {xs : List Char}
    (hxs : noRun p xs = true)
    (h : p x = false ∨ ∀ y, xs.head? = some y → p y = false) :
    noRun p (x :: xs) = true := by
  cases xs with
  | nil => rfl
  | cons y ys =>
    have hy : (!(p x && p y)) = true := by
      rcases h with h | h
      · simp [h]
      · simp [h y rfl]
    simp only [noRun, Bool.and_eq_true]
    exact ⟨hy, hxs⟩

theorem noRun_tail {p : Char → Bool} {x : Char} {xs : List Char}
    (h : noRun p (x :: xs) = true) : noRun p xs = true := by
  cases xs with
  | nil => rfl
  | cons y ys =>
    simp only [noRun, Bool.and_eq_true] at h
    exact h.2

theorem noRun_head_pair {p : Char → Bool} {x y : Char} {ys : List Char}
    (h : noRun p (x :: y :: ys) = true) (hx : p x = true) : p y = false := by
  simp only [noRun, Bool.and_eq_true, Bool.not_eq_true', Bool.and_eq_false_iff] at h
  rcases h.1 with h' | h'
  · exact absurd hx (by simp [h'])
  · exact h'

theorem collapseHyphens_aux :
    ∀ l : List Char,
      (noRun isHyphen (replaceRunAux isHyphen false l) = true ∧
        noRun isHyphen (replaceRunAux isHyphen true l) = true) ∧
      (∀ y, (replaceRunAux isHyphen true l).head? = some y → isHyphen y = false) := by
  intro l
  induction l with
  | nil => exact ⟨⟨rfl, rfl⟩, by simp [replaceRunAux]⟩
  | cons a rest ih =>
    by_cases ha : isHyphen a = true
    · have e1 : replaceRunAux isHyphen false (a :: rest) =
          '-' :: replaceRunAux isHyphen true rest := by
        simp [replaceRunAux, ha]
      have e2 : replaceRunAux isHyphen true (a :: rest) =
          replaceRunAux isHyphen true rest := by
        simp [replaceRunAux, ha]
      refine ⟨⟨?_, ?_⟩, ?_⟩
      · rw [e1]
        exact noRun_cons ih.1.2 (Or.inr ih.2)
      · rw [e2]; exact ih.1.2
      · rw [e2]; exact ih.2
    · have ha' : isHyphen a = false := Bool.eq_false_iff.mpr ha
      have e1 : replaceRunAux isHyphen false (a :: rest) =
          a :: replaceRunAux isHyphen false rest := by
        simp [replaceRunAux, ha']
      have e2 : replaceRunAux isHyphen true (a :: rest) =
          a :: replaceRunAux isHyphen false rest := by
        simp [replaceRunAux, ha']
      refine ⟨⟨?_, ?_⟩, ?_⟩
      · rw [e1]; exact noRun_cons ih.1.1 (Or.inl ha')
      · rw [e2]; exact noRun_cons ih.1.1 (Or.inl ha')
      · rw [e2]
        intro y hy
        simp only [List.head?_cons, Option.some.injEq] at hy
        exact hy ▸ ha'

theorem noRun_collapseHyphens (l : List Char) :
    noRun isHyphen (collapseHyphens l) = true :=
  (collapseHyphens_aux l).1.1

theorem head?_dropLast {l : List Char} :
    l.dropLast.head? = l.head? ∨ l.dropLast = [] := by
  cases l with
  | nil => exact Or.inr rfl
  | cons a rest =>
    cases rest with
    | nil => exact Or.inr rfl
    | cons b rs => exact Or.inl (by rw [List.dropLast_cons₂, List.head?_cons, List.head?_cons])

theorem noRun_dropLast_getLast {p : Char → Bool} :
    ∀ l : List Char, noRun p l = true → (∀ v, l.getLast? = some v → p v = true) →
      ∀ w, l.dropLast.getLast? = some w → p w = false := by
  intro l
  induction l with
  | nil => intro _ _ w hw; simp at hw
  | cons a rest ih =>
    intro hnr hlast w hw
    cases rest with
    | nil => simp at hw
    | cons b rs =>
      rw [List.dropLast_cons₂] at hw
      cases hrs : (b :: rs).dropLast with
      | nil =>
        cases rs with
        | nil =>
          rw [hrs] at hw
          simp only [List.getLast?_singleton, Option.some.injEq] at hw
          subst hw
          have hb : p b = true := hlast b (by simp [List.getLast?_cons_cons])
          simp only [noRun, Bool.and_eq_true, Bool.not_eq_true',
            Bool.and_eq_false_iff] at hnr
          rcases hnr.1 with h' | h'
          · exact h'
          · exact absurd hb (by simp [h'])
        | cons c cs => simp [List.dropLast_cons₂] at hrs
      | cons d ds =>
        rw [hrs, List.getLast?_cons_cons, ← hrs] at hw
        exact ih (noRun_tail hnr)
          (fun v hv => hlast v (by rwa [List.getLast?_cons_cons])) w hw

theorem isHyphen_iff {c : Char} : isHyphen c = true ↔ c = '-' := by
  simp [isHyphen]

theorem noRun_append_left {p : Char → Bool} :
    ∀ (l t : List Char), noRun p (l ++ t) = true → noRun p l = true := by
  intro l t
  induction l with
  | nil => intro _; rfl
  | cons a l' ih =>
    intro h
    cases l' with
    | nil => rfl
    | cons b l'' =>
      simp only [List.cons_append, noRun, Bool.and_eq_true] at h
      have h2 := ih (by simpa [noRun, Bool.and_eq_true] using h.2)
      simp only [noRun, Bool.and_eq_true]
      exact ⟨h.1, h2⟩

theorem noRun_dropLast {p : Char → Bool} {l : List Char}
    (h : noRun p l = true) : noRun p l.dropLast = true := by
  by_cases hne : l = []
  · subst hne; rfl
  · have hsplit := List.dropLast_append_getLast hne
    exact noRun_append_left _ _ (by rw [hsplit]; exact h)

theorem stripEdgeHyphens_props (l : List Char) (hnr : noRun isHyphen l = true) :
    ((stripEdgeHyphens l).head? ≠ some '-') ∧
    ((stripEdgeHyphens l).getLast? ≠ some '-') ∧
    noRun isHyphen (stripEdgeHyphens l) = true ∧
    (stripEdgeHyphens l) ⊆ l := by
  have main : ∀ l1 : List Char, noRun isHyphen l1 = true → l1.head? ≠ some '-' →
      ((if l1.getLast? = some '-' then l1.dropLast else l1).head? ≠ some '-') ∧
      ((if l1.getLast? = some '-' then l1.dropLast else l1).getLast? ≠ some '-') ∧
      noRun isHyphen (if l1.getLast? = some '-' then l1.dropLast else l1) = true ∧
      (if l1.getLast? = some '-' then l1.dropLast else l1) ⊆ l1 := by
    intro l1 hnr1 hh1
    by_cases h2 : l1.getLast? = some '-'
    · rw [if_pos h2]
      refine ⟨?_, ?_, noRun_dropLast hnr1, List.dropLast_subset l1⟩
      · rcases head?_dropLast (l := l1) with h | h
        · rw [h]; exact hh1
        · rw [h]; simp
      · intro hw
        have := noRun_dropLast_getLast l1 hnr1
          (fun v hv => by
            rw [h2] at hv
            injection hv with hv
            rw [← hv]; decide) '-' hw
        simp [isHyphen] at this
    · rw [if_neg h2]
      exact ⟨hh1, h2, hnr1, fun _ h => h⟩
  by_cases h1 : l.head? = some '-'
  · cases l with
    | nil => simp at h1
    | cons a t =>
      rw [List.head?_cons, Option.some.injEq] at h1
      subst h1
      have ht : noRun isHyphen t = true := noRun_tail hnr
      have hh : t.head? ≠ some '-' := by
        cases t with
        | nil => simp
        | cons y ys =>
          have := noRun_head_pair hnr (by decide)
          rw [List.head?_cons]
          intro hc
          injection hc with hc
          rw [hc] at this
          simp [isHyphen] at this
      have := main t ht hh
      simpa [stripEdgeHyphens, List.head?_cons] using
        ⟨this.1, this.2.1, this.2.2.1, this.2.2.2.trans (List.tail_subset ('-' :: t))⟩
  · have := main l hnr h1
    simpa [stripEdgeHyphens, if_neg h1] using this

theorem slugify_mem_allowed (s : List Char) :
    ∀ c ∈ slugify s, allowedChar c = true := by
  intro c hc
  have hsub := (stripEdgeHyphens_props _ (noRun_collapseHyphens
    (mapDisallowed (replaceWsRuns (List.map jsToLower (jsTrim s)))))).2.2.2
  exact mem_collapseHyphens_allowed (fun x hx => mem_mapDisallowed hx) (hsub hc)

theorem slugify_noRun (s : List Char) :
    noRun isHyphen (slugify s) = true :=
  (stripEdgeHyphens_props _ (noRun_collapseHyphens _)).2.2.1

theorem slugify_head (s : List Char) : (slugify s).head? ≠ some '-' :=
  (stripEdgeHyphens_props _ (noRun_collapseHyphens _)).1

theorem slugify_getLast (s : List Char) : (slugify s).getLast? ≠ some '-' :=
  (stripEdgeHyphens_props _ (noRun_collapseHyphens _)).2.1

/-! ### Slugify is the identity on its own output -/

theorem dropWhile_eq_self_of_none {p : Char → Bool} {l : List Char}
    (h : ∀ c ∈ l, p c = false) : l.dropWhile p = l := by
  cases l with
  | nil => rfl
  | cons a rest =>
    rw [List.dropWhile_cons, if_neg]
    simp [h a (List.mem_cons_self a rest)]

theorem jsTrim_eq_self {l : List Char} (h : ∀ c ∈ l, jsIsSpace c = false) :
    jsTrim l = l := by
  unfold jsTrim
  rw [dropWhile_eq_self_of_none h,
    dropWhile_eq_self_of_none (fun c hc => h c (List.mem_reverse.mp hc)),
    List.reverse_reverse]

theorem map_toLower_eq_self {l : List Char} (h : ∀ c ∈ l, allowedChar c = true) :
    List.map jsToLower l = l := by
  rw [List.map_congr_left (fun a ha => allowed_toLower (h a ha))]
  exact List.map_id' l

theorem replaceRunAux_eq_self_of_none {p : Char → Bool} :
    ∀ (b : Bool) (l : List Char), (∀ c ∈ l, p c = false) →
      replaceRunAux p b l = l := by
  intro b l
  induction l generalizing b with
  | nil => intro _; rfl
  | cons a rest ih =>
    intro h
    simp only [replaceRunAux, h a (List.mem_cons_self a rest)]
    simp only [Bool.false_eq_true, if_false]
    rw [ih false (fun c hc => h c (List.mem_cons_of_mem a hc))]

theorem mapDisallowed_eq_self {l : List Char} (h : ∀ c ∈ l, allowedChar c = true) :
    mapDisallowed l = l := by
  unfold mapDisallowed
  rw [List.map_congr_left (fun a ha => by rw [if_pos (h a ha)])]
  exact List.map_id' l

theorem collapseHyphens_eq_self {l : List Char} (hnr : noRun isHyphen l = true) :
    collapseHyphens l = l := by
  suffices h : ∀ l : List Char, noRun isHyphen l = true →
      (replaceRunAux isHyphen false l = l ∧
        (l.head? ≠ some '-' → replaceRunAux isHyphen true l = l)) from
    (h l hnr).1
  intro l
  induction l with
  | nil => intro _; exact ⟨rfl, fun _ => rfl⟩
  | cons a rest ih =>
    intro hnr
    have ihr := ih (noRun_tail hnr)
    by_cases ha : isHyphen a = true
    · have ha' : a = '-' := isHyphen_iff.mp ha
      have hrest : rest.head? ≠ some '-' := by
        cases rest with
        | nil => simp
        | cons y ys =>
          have := noRun_head_pair hnr ha
          rw [List.head?_cons]
          intro hc
          injection hc with hc
          rw [hc] at this
          simp [isHyphen] at this
      constructor
      · simp only [replaceRunAux, ha, if_true, Bool.false_eq_true, if_false]
        rw [ihr.2 hrest, ha']
      · intro hh
        rw [List.head?_cons, ha'] at hh
        exact absurd rfl hh
    · have ha' : isHyphen a = false := Bool.eq_false_iff.mpr ha
      constructor
      · simp only [replaceRunAux, ha', Bool.false_eq_true, if_false]
        rw [ihr.1]
      · intro _
        simp only [replaceRunAux, ha', Bool.false_eq_true, if_false]
        rw [ihr.1]

theorem stripEdgeHyphens_eq_self {l : List Char}
    (hh : l.head? ≠ some '-') (hl : l.getLast? ≠ some '-') :
    stripEdgeHyphens l = l := by
  unfold stripEdgeHyphens
  rw [if_neg hh]
  exact if_neg hl

/-- C1: for every input string the derived slug is lowercase, contains no
whitespace, consists only of characters in `[a-z0-9-_.]`, has no leading or
trailing hyphen and no two consecutive hyphens; and
`slugify "My Cool App!!" = "my-cool-app"`. -/
theorem slugify_wellformed (s : List Char) :
    (∀ c ∈ slugify s, allowedChar c = true) ∧
    (∀ c ∈ slugify s, isUpperAscii c = false ∧ jsIsSpace c = false) ∧
    (slugify s).head? ≠ some '-' ∧
    (slugify s).getLast? ≠ some '-' ∧
    noRun isHyphen (slugify s) = true ∧
    slugify (chars "My Cool App!!") = chars "my-cool-app" := by
  refine ⟨slugify_mem_allowed s, ?_, slugify_head s, slugify_getLast s,
    slugify_noRun s, by decide⟩
  intro c hc
  have h := slugify_mem_allowed s c hc
  exact ⟨allowed_not_upper h, allowed_not_space h⟩

/-- C9: `slugify` is idempotent — a string already in slug form is a fixed
point of `slugify`. -/
theorem slugify_idempotent (s : List Char) : slugify (slugify s) = slugify s := by
  have hall := slugify_mem_allowed s
  have hns : ∀ c ∈ slugify s, jsIsSpace c = false :=
    fun c hc => allowed_not_space (hall c hc)
  show stripEdgeHyphens (collapseHyphens (mapDisallowed (replaceWsRuns
    (List.map jsToLower (jsTrim (slugify s)))))) = slugify s
  have h1 : replaceWsRuns (slugify s) = slugify s :=
    replaceRunAux_eq_self_of_none false _ hns
  rw [jsTrim_eq_self hns, map_toLower_eq_self hall, h1,
    mapDisallowed_eq_self hall, collapseHyphens_eq_self (slugify_noRun s),
    stripEdgeHyphens_eq_self (slugify_head s) (slugify_getLast s)]

/-! ### Single-pass replacement: split/rejoin characterization -/

theorem getSubstitution_no_dollar {matched before after : List Char} :
    ∀ {rep : List Char}, '$' ∉ rep →
      getSubstitution matched before after rep = rep := by
  intro rep
  induction rep with
  | nil => intro _; rfl
  | cons c r ih =>
    intro h
    have hc : ¬ c = '$' := by
      intro he
      exact h (by rw [he]; exact List.mem_cons_self _ _)
    have hr : '$' ∉ r := fun hm => h (List.mem_cons_of_mem c hm)
    cases r with
    | nil =>
      simp only [getSubstitution]
      rw [if_neg hc]
    | cons d r' =>
      simp only [getSubstitution]
      rw [if_neg hc, ih hr]

theorem replaceAllGo_skip (pat rep orig : List Char) :
    ∀ (text : List Char) (pos n : Nat),
      replaceAllGo pat rep orig pos n text =
        replaceAllGo pat rep orig (pos + n) 0 (text.drop n) := by
  intro text
  induction text with
  | nil => intro pos n; cases n <;> rfl
  | cons c rest ih =>
    intro pos n
    cases n with
    | zero => rw [Nat.add_zero, List.drop_zero]
    | succ k =>
      show replaceAllGo pat rep orig (pos + 1) k rest = _
      rw [ih (pos + 1) k, List.drop_succ_cons]
      have : pos + 1 + k = pos + (k + 1) := by omega
      rw [this]

theorem joinWith_cons_of_ne (sep a : List Char) (parts : List (List Char))
    (h : parts ≠ []) :
    joinWith sep (a :: parts) = a ++ sep ++ joinWith sep parts := by
  cases parts with
  | nil => exact absurd rfl h
  | cons y ys => rfl

theorem joinWith_cons_head (sep : List Char) (c : Char) (p0 : List Char)
    (ps : List (List Char)) :
    joinWith sep ((c :: p0) :: ps) = c :: joinWith sep (p0 :: ps) := by
  cases ps with
  | nil => rfl
  | cons y ys => simp [joinWith, List.cons_append]

theorem prefix_joinWith (sep p0 : List Char) (ps : List (List Char)) :
    p0 <+: joinWith sep (p0 :: ps) := by
  cases ps with
  | nil => exact List.prefix_refl p0
  | cons y ys =>
    exact ⟨sep ++ joinWith sep (y :: ys), by simp [joinWith, List.append_assoc]⟩

theorem isPrefixOf_true_iff {l1 l2 : List Char} :
    l1.isPrefixOf l2 = true ↔ l1 <+: l2 :=
  List.isPrefixOf_iff_prefix

theorem containsSub_nil {pat : List Char} (h : pat ≠ []) :
    containsSub pat [] = false := by
  cases pat with
  | nil => exact absurd rfl h
  | cons p0 ps => rfl

theorem containsSub_iff {pat text : List Char} :
    containsSub pat text = true ↔ pat <:+: text := by
  induction text with
  | nil => simp [containsSub, List.isEmpty_iff, List.infix_nil]
  | cons c rest ih =>
    simp [containsSub, Bool.or_eq_true, isPrefixOf_true_iff, ih,
      List.infix_cons_iff]

theorem replaceAll_join (pat rep : List Char) (hpat : pat ≠ [])
    (hrep : '$' ∉ rep) :
    ∀ text : List Char, ∃ parts : List (List Char), parts ≠ [] ∧
      text = joinWith pat parts ∧
      replaceAll pat rep text = joinWith rep parts ∧
      ∀ part ∈ parts, containsSub pat part = false := by
  have hlenpat : 1 ≤ pat.length := by
    cases pat with
    | nil => exact absurd rfl hpat
    | cons q qs => simp
  suffices H : ∀ (n : Nat) (cur pre : List Char), cur.length ≤ n →
      ∃ parts : List (List Char), parts ≠ [] ∧
        cur = joinWith pat parts ∧
        replaceAllGo pat rep (pre ++ cur) pre.length 0 cur = joinWith rep parts ∧
        ∀ part ∈ parts, containsSub pat part = false by
    intro text
    obtain ⟨parts, h1, h2, h3, h4⟩ := H text.length text [] le_rfl
    exact ⟨parts, h1, h2, by simpa [replaceAll] using h3, h4⟩
  intro n
  induction n with
  | zero =>
    intro cur pre hlen
    have hc : cur = [] := List.length_eq_zero.mp (Nat.le_zero.mp hlen)
    subst hc
    exact ⟨[[]], by simp, rfl, rfl, by
      intro part hp
      simp only [List.mem_singleton] at hp
      subst hp
      exact containsSub_nil hpat⟩
  | succ m ih =>
    intro cur pre hlen
    cases cur with
    | nil =>
      exact ⟨[[]], by simp, rfl, rfl, by
        intro part hp
        simp only [List.mem_singleton] at hp
        subst hp
        exact containsSub_nil hpat⟩
    | cons c rest =>
      by_cases hp : pat.isPrefixOf (c :: rest) = true
      · have hpre : pat <+: (c :: rest) := isPrefixOf_true_iff.mp hp
        have hsplit : pat ++ (c :: rest).drop pat.length = c :: rest :=
          List.prefix_iff_eq_append.mp hpre
        have hlen' : ((c :: rest).drop pat.length).length ≤ m := by
          rw [List.length_drop]
          simp only [List.length_cons] at hlen ⊢
          omega
        obtain ⟨parts', hne', ht', ho', hf'⟩ :=
          ih ((c :: rest).drop pat.length) (pre ++ pat) hlen'
        have horig : pre ++ (c :: rest) =
            (pre ++ pat) ++ (c :: rest).drop pat.length := by
          rw [List.append_assoc, hsplit]
        have hw : replaceAllGo pat rep (pre ++ (c :: rest)) pre.length 0 (c :: rest) =
            rep ++ replaceAllGo pat rep
              ((pre ++ pat) ++ (c :: rest).drop pat.length)
              (pre ++ pat).length 0 ((c :: rest).drop pat.length) := by
          simp only [replaceAllGo]
          rw [if_pos hp, getSubstitution_no_dollar hrep, replaceAllGo_skip]
          have hdrop : rest.drop (pat.length - 1) = (c :: rest).drop pat.length := by
            have hplen : pat.length = pat.length - 1 + 1 := by omega
            conv_rhs => rw [hplen]
            rw [List.drop_succ_cons]
          have hpos : pre.length + 1 + (pat.length - 1) = (pre ++ pat).length := by
            rw [List.length_append]; omega
          rw [hdrop, hpos, horig]
        refine ⟨[] :: parts', by simp, ?_, ?_, ?_⟩
        · rw [joinWith_cons_of_ne _ _ _ hne', List.nil_append, ← ht']
          exact hsplit.symm
        · rw [hw, joinWith_cons_of_ne _ _ _ hne', List.nil_append, ho']
        · intro part hpart
          rcases List.mem_cons.mp hpart with h | h
          · subst h; exact containsSub_nil hpat
          · exact hf' part h
      · have hlen' : rest.length ≤ m := by
          simp only [List.length_cons] at hlen
          omega
        obtain ⟨parts', hne', ht', ho', hf'⟩ := ih rest (pre ++ [c]) hlen'
        have horig : pre ++ (c :: rest) = (pre ++ [c]) ++ rest := by
          rw [List.append_assoc]; rfl
        have hpos : pre.length + 1 = (pre ++ [c]).length := by simp
        have hw : replaceAllGo pat rep (pre ++ (c :: rest)) pre.length 0 (c :: rest) =
            c :: replaceAllGo pat rep ((pre ++ [c]) ++ rest)
              (pre ++ [c]).length 0 rest := by
          simp only [replaceAllGo]
          rw [if_neg hp, horig, hpos]
        cases parts' with
        | nil => exact absurd rfl hne'
        | cons p0 ps =>
          refine ⟨(c :: p0) :: ps, by simp, ?_, ?_, ?_⟩
          · rw [joinWith_cons_head, ← ht']
          · rw [hw, joinWith_cons_head, ← ho']
          · intro part hpart
            rcases List.mem_cons.mp hpart with h | h
            · subst h
              have h1 : containsSub pat p0 = false := hf' p0 (List.mem_cons_self _ _)
              have h2 : pat.isPrefixOf (c :: p0) = false := by
                rw [Bool.eq_false_iff]
                intro hcon
                have hcp : pat <+: (c :: p0) := isPrefixOf_true_iff.mp hcon
                have hp0 : p0 <+: rest := by
                  rw [ht']; exact prefix_joinWith pat p0 ps
                have : pat <+: (c :: rest) :=
                  hcp.trans (List.cons_prefix_cons.mpr ⟨rfl, hp0⟩)
                exact hp (isPrefixOf_true_iff.mpr this)
              show containsSub pat (c :: p0) = false
              simp [containsSub, h1, h2]
            · exact hf' part (List.mem_cons_of_mem _ h)

theorem slugify_no_dollar (name : List Char) : '$' ∉ slugify name := by
  intro hmem
  have h := slugify_mem_allowed name '$' hmem
  exact absurd h (by decide)

/-! ### C5: the manifest rewriter -/

/-- C5 counterexample: the claim that zero placeholder occurrences remain
is false.  Variant B at project name `"a_"` (which contains neither
placeholder token): the inserted slug `"a_"` joins with adjacent manifest
text to recreate `__PROJECT_SLUG__`.  Variant A at project name `"c"`:
the replacement joins with the following text to recreate the literal
template-name token. -/
theorem rewritePkg_token_survives :
    containsSub (chars "__PROJECT_SLUG__")
      (chars "__PROJECT_SLUG___PROJECT_SLUG__") = true ∧
    slugify (chars "a_") = chars "a_" ∧
    rewritePkgB (chars "a_") (chars "__PROJECT_SLUG___PROJECT_SLUG__") =
      chars "a__PROJECT_SLUG__" ∧
    containsSub (chars "__PROJECT_SLUG__")
      (rewritePkgB (chars "a_") (chars "__PROJECT_SLUG___PROJECT_SLUG__")) = true ∧
    containsSub (chars "convexity-n-layer-template")
      (chars "convexity-n-layer-templateonvexity-n-layer-template") = true ∧
    rewritePkgA (chars "c")
        (chars "convexity-n-layer-templateonvexity-n-layer-template") =
      chars "convexity-n-layer-template" ∧
    containsSub (chars "convexity-n-layer-template")
      (rewritePkgA (chars "c")
        (chars "convexity-n-layer-templateonvexity-n-layer-template")) = true := by
  decide

/-- C5 (amended): each rewriter pass is a single left-to-right
non-rescanning global replacement with JavaScript dollar-substitution
(GetSubstitution) applied to the replacement text, as witnessed by the
`$&` example.  For a replacement containing no `$` the pass output is the
manifest's token-free segments rejoined with the replacement — and the
slug never contains `$`, so this always covers the slug pass; the project
name may contain `$`, in which case its dollar escapes are expanded
instead of spliced.  Zero occurrences of a placeholder remain only when no
occurrence lies inside an inserted replacement or spans a replacement
boundary. -/
theorem manifest_rewrite_single_pass :
    (∀ name text, rewritePkgA name text =
      replaceAll (chars "__PROJECT_SLUG__") (slugify name)
        (replaceAll (chars "convexity-n-layer-template") name text)) ∧
    (∀ name text, rewritePkgB name text =
      replaceAll (chars "__PROJECT_SLUG__") (slugify name)
        (replaceAll (chars "__PROJECT_NAME__") name text)) ∧
    (∀ name : List Char, '$' ∉ slugify name) ∧
    replaceAll (chars "ab") (chars "$&$&") (chars "xaby") = chars "xababy" ∧
    (∀ pat rep text : List Char, pat ≠ [] → '$' ∉ rep →
      ∃ parts : List (List Char), parts ≠ [] ∧
        text = joinWith pat parts ∧
        replaceAll pat rep text = joinWith rep parts ∧
        ∀ part ∈ parts, containsSub pat part = false) :=
  ⟨fun _ _ => rfl, fun _ _ => rfl, slugify_no_dollar, by decide,
    fun pat rep text h hd => replaceAll_join pat rep h hd text⟩

theorem manifest_rewrite_single_pass_witness :
    ∃ parts : List (List Char), parts ≠ [] ∧
      chars "x__PROJECT_NAME__y" = joinWith (chars "__PROJECT_NAME__") parts ∧
      replaceAll (chars "__PROJECT_NAME__") (chars "app")
          (chars "x__PROJECT_NAME__y") = joinWith (chars "app") parts ∧
      ∀ part ∈ parts, containsSub (chars "__PROJECT_NAME__") part = false :=
  manifest_rewrite_single_pass.2.2.2.2 (chars "__PROJECT_NAME__") (chars "app")
    (chars "x__PROJECT_NAME__y") (by decide) (by decide)

/-! ### C4: the fetch specification -/

/-- C4 counterexample: in variant A the leading-slash stripping happens
before the comparison with `"."`, so the subpath `"/."` yields the bare
descriptor, while the claim's formula appends `"/."`. -/
theorem fetch_spec_dot_counterexample :
    buildSpecA (templatePathA (chars "/."))
        (repoBaseOf (chars "wrappedcbdc/convexity-n-layer-template")) =
      chars "wrappedcbdc/convexity-n-layer-template" ∧
    specFromClaim (chars "wrappedcbdc/convexity-n-layer-template") (chars "/.") =
      chars "wrappedcbdc/convexity-n-layer-template/." ∧
    buildSpecA (templatePathA (chars "/."))
        (repoBaseOf (chars "wrappedcbdc/convexity-n-layer-template")) ≠
      specFromClaim (chars "wrappedcbdc/convexity-n-layer-template") (chars "/.") := by
  decide

theorem dropWhile_dropWhile {p : Char → Bool} (l : List Char) :
    (l.dropWhile p).dropWhile p = l.dropWhile p := by
  induction l with
  | nil => rfl
  | cons a rest ih =>
    rw [List.dropWhile_cons]
    by_cases h : p a = true
    · rw [if_pos h]; exact ih
    · rw [if_neg h, List.dropWhile_cons, if_neg h]

theorem jsOr_nil (r : List Char) : jsOr r [] = r := by
  unfold jsOr
  by_cases h : r = []
  · rw [if_pos h, h]
  · rw [if_neg h]

/-- C4 (amended): for a trimmed descriptor and a non-empty subpath,
variant B's fetch spec is exactly the claim's formula; variant A strips
the subpath's leading separators before the comparison with `"."`, so its
spec is the claim's formula applied to the pre-stripped subpath.  With
subpath `"."` both variants yield the descriptor alone (trailing
separators stripped). -/
theorem fetch_spec_amended :
    ∀ repo subpath : List Char, jsTrim repo = repo → subpath ≠ [] →
      repoSpecB (repoBaseOf repo) (templatePathB subpath) =
        specFromClaim repo subpath ∧
      buildSpecA (templatePathA subpath) (repoBaseOf repo) =
        specFromClaim repo (stripLeadingSlashes subpath) ∧
      buildSpecA (templatePathA (chars ".")) (repoBaseOf repo) =
        stripTrailingSlashes repo ∧
      repoSpecB (repoBaseOf repo) (templatePathB (chars ".")) =
        stripTrailingSlashes repo := by
  intro repo subpath htrim hne
  have hbase : repoBaseOf repo = stripTrailingSlashes repo := by
    unfold repoBaseOf
    rw [jsOr_nil, htrim]
  have htpB : templatePathB subpath = subpath := by
    unfold templatePathB jsOr
    rw [if_neg hne]
  have htpA : templatePathA subpath = stripLeadingSlashes subpath := by
    unfold templatePathA jsOr
    rw [if_neg hne]
  refine ⟨?_, ?_, ?_, ?_⟩
  · rw [htpB, hbase]
    unfold repoSpecB specFromClaim
    rfl
  · rw [htpA, hbase]
    unfold buildSpecA specFromClaim
    by_cases h : stripLeadingSlashes subpath = chars "."
    · rw [if_pos h, if_pos h]
    · rw [if_neg h, if_neg h]
      unfold stripLeadingSlashes
      rw [dropWhile_dropWhile]
  · rw [hbase]
    have : templatePathA (chars ".") = chars "." := by decide
    rw [this]
    unfold buildSpecA
    rw [if_pos rfl]
  · rw [hbase]
    have : templatePathB (chars ".") = chars "." := by decide
    rw [this]
    unfold repoSpecB
    rw [if_pos rfl]

theorem fetch_spec_amended_witness :
    repoSpecB (repoBaseOf (chars "wrappedcbdc/convexity-n-layer-template"))
        (templatePathB (chars "template")) =
      specFromClaim (chars "wrappedcbdc/convexity-n-layer-template")
        (chars "template") :=
  (fetch_spec_amended (chars "wrappedcbdc/convexity-n-layer-template")
    (chars "template") (by decide) (by decide)).1

/-! ### C6: project-name resolution -/

/-- C6 counterexample: a positional project name is used untrimmed, and a
whitespace-only positional name is accepted although it is empty after
trimming. -/
theorem resolvedName_counterexample :
    resolvedName (chars " My App") none = some (chars " My App") ∧
    jsTrim (chars " My App") = chars "My App" ∧
    resolvedName (chars " My App") none ≠ some (jsTrim (chars " My App")) ∧
    resolvedName (chars " ") none = some (chars " ") ∧
    jsTrim (chars " ") = [] := by
  decide

/-- C6 (amended): a non-empty positional project name is used by all later
stages exactly as given — verbatim, untrimmed; only the interactively
prompted name is trimmed.  The name may be empty after trimming. -/
theorem resolvedName_verbatim :
    ∀ (pos : List Char) (prompted : Option (List Char)), pos ≠ [] →
      resolvedName pos prompted = some pos := by
  intro pos prompted h
  unfold resolvedName
  rw [if_neg h]

theorem resolvedName_verbatim_witness :
    resolvedName (chars "my-app") none = some (chars "my-app") :=
  resolvedName_verbatim (chars "my-app") none (by decide)

/-! ### C10: installer detection -/

/-- C10: `detectInstaller` probes `pnpm` then `yarn` in that fixed order,
returns the first success, and returns `npm` when both probes fail; no
other value is possible. -/
theorem detectInstaller_order :
    ∀ p y : Bool,
      (p = true → detectInstaller p y = ([chars "pnpm"], chars "pnpm")) ∧
      (p = false → y = true →
        detectInstaller p y = ([chars "pnpm", chars "yarn"], chars "yarn")) ∧
      (p = false → y = false →
        detectInstaller p y = ([chars "pnpm", chars "yarn"], chars "npm")) ∧
      ((detectInstaller p y).2 = chars "pnpm" ∨
        (detectInstaller p y).2 = chars "yarn" ∨
        (detectInstaller p y).2 = chars "npm") := by
  intro p y
  cases p <;> cases y <;> exact ⟨by decide, by decide, by decide, by decide⟩

theorem detectInstaller_order_witness :
    detectInstaller false true = ([chars "pnpm", chars "yarn"], chars "yarn") :=
  (detectInstaller_order false true).2.1 rfl rfl

/-! ### C2: the clone fallback policy -/

/-- C2 counterexample: variant B has no fallback at all.  With the
recognized `github:` qualifier on the descriptor and a failing fetch, only
one attempt is made (the claim requires a second attempt with the
qualifier stripped) and the process exits 1. -/
theorem fetchB_no_retry_counterexample :
    ghQualifier.isPrefixOf
      (repoBaseOf (chars "github:wrappedcbdc/convexity-n-layer-template")) = true ∧
    (runB ⟨chars "app", none, [], chars "github:wrappedcbdc/convexity-n-layer-template",
      false, false, false, [], none, fun _ => false, false, [], false, false, false,
      false, false, false⟩).cloneAttempts =
      [chars "github:wrappedcbdc/convexity-n-layer-template/template"] ∧
    (runB ⟨chars "app", none, [], chars "github:wrappedcbdc/convexity-n-layer-template",
      false, false, false, [], none, fun _ => false, false, [], false, false, false,
      false, false, false⟩).exitCode = 1 := by
  decide

/-- C2 (amended): variant A implements the claimed policy — on a failed
first attempt with a `github:`-qualified descriptor it retries exactly once
with the qualifier stripped (warning naming both specs), and exits 1 when
the retry fails or when no qualifier was present; variant B never retries:
any fetch failure exits 1 with an error naming the failed spec, qualifier
or not. -/
theorem fetch_fallback_amended :
    (∀ (cloneOk : List Char → Bool) (base tp : List Char),
      (ghQualifier.isPrefixOf base = true → cloneOk (buildSpecA tp base) = false →
        (fetchA cloneOk base tp).attempts =
          [buildSpecA tp base, buildSpecA tp (stripGhQualifier base)] ∧
        (fetchA cloneOk base tp).warned =
          some (buildSpecA tp base, buildSpecA tp (stripGhQualifier base)) ∧
        (cloneOk (buildSpecA tp (stripGhQualifier base)) = true →
          (fetchA cloneOk base tp).success =
            some (buildSpecA tp (stripGhQualifier base))) ∧
        (cloneOk (buildSpecA tp (stripGhQualifier base)) = false →
          (fetchA cloneOk base tp).success = none)) ∧
      (ghQualifier.isPrefixOf base = false → cloneOk (buildSpecA tp base) = false →
        (fetchA cloneOk base tp).attempts = [buildSpecA tp base] ∧
        (fetchA cloneOk base tp).errorSpec = some (buildSpecA tp base) ∧
        (fetchA cloneOk base tp).success = none) ∧
      (cloneOk (repoSpecB base tp) = false →
        (fetchB cloneOk (repoSpecB base tp)).attempts = [repoSpecB base tp] ∧
        (fetchB cloneOk (repoSpecB base tp)).warned = none ∧
        (fetchB cloneOk (repoSpecB base tp)).errorSpec = some (repoSpecB base tp) ∧
        (fetchB cloneOk (repoSpecB base tp)).success = none)) ∧
    (∀ e : Env,
      (fetchA e.cloneOk (repoBaseOf e.repoOpt)
        (templatePathA e.templateOpt)).success = none →
      (runA e).exitCode = 1) ∧
    (∀ e : Env,
      (fetchB e.cloneOk (repoSpecB (repoBaseOf e.repoOpt)
        (templatePathB e.templateOpt))).success = none →
      (runB e).exitCode = 1) := by
  refine ⟨?_, ?_, ?_⟩
  · intro cloneOk base tp
    refine ⟨?_, ?_, ?_⟩
    · intro hgh hfail
      by_cases hfb : cloneOk (buildSpecA tp (stripGhQualifier base)) = true
      · refine ⟨by simp [fetchA, hfail, hgh, hfb], by simp [fetchA, hfail, hgh, hfb],
          fun _ => by simp [fetchA, hfail, hgh, hfb],
          fun hc => absurd hfb (by simp [hc])⟩
      · have hfb' : cloneOk (buildSpecA tp (stripGhQualifier base)) = false :=
          Bool.eq_false_iff.mpr hfb
        refine ⟨by simp [fetchA, hfail, hgh, hfb'], by simp [fetchA, hfail, hgh, hfb'],
          fun hc => absurd hc (by simp [hfb']),
          fun _ => by simp [fetchA, hfail, hgh, hfb']⟩
    · intro hgh hfail
      refine ⟨by simp [fetchA, hfail, hgh], by simp [fetchA, hfail, hgh],
        by simp [fetchA, hfail, hgh]⟩
    · intro hfail
      refine ⟨by simp [fetchB, hfail], by simp [fetchB, hfail],
        by simp [fetchB, hfail], by simp [fetchB, hfail]⟩
  · intro e hnone
    unfold runA
    cases hr : resolvedName e.positionalName e.promptedName with
    | none => rfl
    | some name =>
      cases hg : guardStage e.dirExists e.dirEntries e.overwriteAnswer with
      | none => rfl
      | some removed => simp [scaffoldA, hnone]
  · intro e hnone
    unfold runB
    cases hr : resolvedName e.positionalName e.promptedName with
    | none => rfl
    | some name =>
      cases hg : guardStage e.dirExists e.dirEntries e.overwriteAnswer with
      | none => rfl
      | some removed => simp [scaffoldB, hnone]

theorem fetch_fallback_amended_witness :
    (fetchA (fun s => s == chars "wrappedcbdc/convexity-n-layer-template/template")
      (chars "github:wrappedcbdc/convexity-n-layer-template")
      (chars "template")).attempts =
      [chars "github:wrappedcbdc/convexity-n-layer-template/template",
       chars "wrappedcbdc/convexity-n-layer-template/template"] :=
  ((fetch_fallback_amended.1
    (fun s => s == chars "wrappedcbdc/convexity-n-layer-template/template")
    (chars "github:wrappedcbdc/convexity-n-layer-template")
    (chars "template")).1 (by decide) (by decide)).1

/-! ### C3: declined overwrite -/

/-- C3: if the target directory exists with a non-empty listing and the
overwrite confirmation is declined or cancelled, the process exits 1 and
nothing is done: no recursive removal, no clone attempt, no manifest
write — in both variants. -/
theorem overwrite_declined_aborts :
    ∀ e : Env, e.dirExists = true → e.dirEntries ≠ [] →
      (e.overwriteAnswer = some false ∨ e.overwriteAnswer = none) →
      (runA e).exitCode = 1 ∧ (runA e).removedDir = false ∧
      (runA e).cloneAttempts = [] ∧ (runA e).wroteManifest = none ∧
      (runB e).exitCode = 1 ∧ (runB e).removedDir = false ∧
      (runB e).cloneAttempts = [] ∧ (runB e).wroteManifest = none := by
  intro e hex hne hans
  have hlen : e.dirEntries.length ≠ 0 := by
    intro h0; exact hne (List.length_eq_zero.mp h0)
  have hguard : guardStage e.dirExists e.dirEntries e.overwriteAnswer = none := by
    rcases hans with h | h <;> simp [guardStage, hex, h, hlen]
  cases hr : resolvedName e.positionalName e.promptedName with
  | none => simp [runA, runB, hr, abortedRun]
  | some name => simp [runA, runB, hr, hguard, abortedRun]

theorem overwrite_declined_aborts_witness :
    (runA ⟨chars "app", none, [], chars "o/r", false, false, true, [chars "f"],
      some false, fun _ => true, false, [], false, false, false, false, false,
      false⟩).exitCode = 1 :=
  (overwrite_declined_aborts
    ⟨chars "app", none, [], chars "o/r", false, false, true, [chars "f"],
      some false, fun _ => true, false, [], false, false, false, false, false,
      false⟩ (by decide) (by decide) (Or.inl rfl)).1

/-! ### C7: the version-control stage is never fatal -/

/-- C7: once the run reaches the version-control stage (name resolved,
guard passed, fetch succeeded, install succeeded or skipped, stage not
disabled), the exit code is 0 for every combination of init, staging and
commit outcomes; each failure is downgraded to the informational message
recorded by `gitStage`. -/
theorem git_failures_not_fatal :
    ∀ (e : Env) (name : List Char) (removed : Bool),
      resolvedName e.positionalName e.promptedName = some name →
      guardStage e.dirExists e.dirEntries e.overwriteAnswer = some removed →
      (fetchA e.cloneOk (repoBaseOf e.repoOpt)
        (templatePathA e.templateOpt)).success.isSome = true →
      (fetchB e.cloneOk (repoSpecB (repoBaseOf e.repoOpt)
        (templatePathB e.templateOpt))).success.isSome = true →
      (e.installFlag = false ∨ e.installOk = true) →
      e.noGitFlag = false →
      (runA e).exitCode = 0 ∧ (runB e).exitCode = 0 ∧
      (runA e).gitMsg = gitStage false e.gitInitOk e.gitAddOk e.gitCommitOk ∧
      (runB e).gitMsg = gitStage false e.gitInitOk e.gitAddOk e.gitCommitOk := by
  intro e name removed hname hguard hfA hfB hinst hnogit
  obtain ⟨specA, hsA⟩ := Option.isSome_iff_exists.mp hfA
  obtain ⟨specB, hsB⟩ := Option.isSome_iff_exists.mp hfB
  have hii : (e.installFlag && !e.installOk) = false := by
    rcases hinst with h | h <;> simp [h]
  refine ⟨?_, ?_, ?_, ?_⟩ <;>
    simp [runA, runB, hname, hguard, scaffoldA, scaffoldB, hsA, hsB, hii, hnogit]

theorem git_failures_not_fatal_witness :
    (runA ⟨chars "app", none, [], chars "o/r", false, false, false, [], none,
      fun _ => true, false, [], false, false, false, false, false, false⟩).exitCode
      = 0 :=
  (git_failures_not_fatal
    ⟨chars "app", none, [], chars "o/r", false, false, false, [], none,
      fun _ => true, false, [], false, false, false, false, false, false⟩
    (chars "app") false (by decide) (by decide) (by decide) (by decide)
    (Or.inl rfl) rfl).1

/-! ### C8: missing manifest is skipped silently -/

/-- C8: when no `package.json` exists at the target root after the fetch,
the rewriter performs no write and the run continues normally to the
following stages (exit 0 absent failures elsewhere) — in both variants. -/
theorem manifest_absent_skips :
    ∀ (e : Env) (name : List Char) (removed : Bool),
      resolvedName e.positionalName e.promptedName = some name →
      guardStage e.dirExists e.dirEntries e.overwriteAnswer = some removed →
      (fetchA e.cloneOk (repoBaseOf e.repoOpt)
        (templatePathA e.templateOpt)).success.isSome = true →
      (fetchB e.cloneOk (repoSpecB (repoBaseOf e.repoOpt)
        (templatePathB e.templateOpt))).success.isSome = true →
      e.pkgExists = false →
      (e.installFlag = false ∨ e.installOk = true) →
      (runA e).wroteManifest = none ∧ (runB e).wroteManifest = none ∧
      (runA e).exitCode = 0 ∧ (runB e).exitCode = 0 := by
  intro e name removed hname hguard hfA hfB hpkg hinst
  obtain ⟨specA, hsA⟩ := Option.isSome_iff_exists.mp hfA
  obtain ⟨specB, hsB⟩ := Option.isSome_iff_exists.mp hfB
  have hii : (e.installFlag && !e.installOk) = false := by
    rcases hinst with h | h <;> simp [h]
  refine ⟨?_, ?_, ?_, ?_⟩ <;>
    simp [runA, runB, hname, hguard, scaffoldA, scaffoldB, hsA, hsB, hii, hpkg]

theorem manifest_absent_skips_witness :
    (runA ⟨chars "app", none, [], chars "o/r", true, false, false, [], none,
      fun _ => true, false, [], false, false, true, false, false, false⟩).wroteManifest
      = none :=
  (manifest_absent_skips
    ⟨chars "app", none, [], chars "o/r", true, false, false, [], none,
      fun _ => true, false, [], false, false, true, false, false, false⟩
    (chars "app") false (by decide) (by decide) (by decide) (by decide)
    (by decide) (Or.inr rfl)).1

end Convexity
